import Mathlib

/-!
Verification development for the rigid/similarity point-set registration core
(matched-point fitting, tolerance checking, and the coregistration session
controller).  The repository ships only the test suite and a tutorial for this
core, so the operations themselves are modelled from the specification: points
are 3-vectors of reals, transforms are a linear part plus an offset, the
closed-form fitter is characterised as a least-squares minimiser over the
admissible transform class, and the controller is a state machine over a
parameter vector, an outlier filter and mode fields.
-/

open Matrix

noncomputable section

/-- Points are 3-vectors of real coordinates (spec section 3: a `Point` is a 3-vector;
the internal unit is meters). -/
abbrev Pt := Fin 3 → ℝ

/-- Square real matrices of size 3: the linear block of a spatial transform. -/
abbrev M3 := Matrix (Fin 3) (Fin 3) ℝ

/-- Squared Euclidean distance between two points. -/
def sqDist (x y : Pt) : ℝ := ∑ j, (x j - y j) ^ 2

theorem sqDist_nonneg (x y : Pt) : 0 ≤ sqDist x y :=
  Finset.sum_nonneg fun _ _ => sq_nonneg _

theorem sqDist_self (x : Pt) : sqDist x x = 0 := by
  simp [sqDist]

theorem sqDist_eq_zero {x y : Pt} (h : sqDist x y = 0) : x = y := by
  funext j
  have hj := (Finset.sum_eq_zero_iff_of_nonneg
    (fun i _ => sq_nonneg (x i - y i))).1 h j (Finset.mem_univ j)
  have := pow_eq_zero_iff (n := 2) (by norm_num) |>.1 hj
  linarith [this]

theorem sqDist_pos {x y : Pt} (h : x ≠ y) : 0 < sqDist x y := by
  rcases lt_or_eq_of_le (sqDist_nonneg x y) with hlt | heq
  · exact hlt
  · exact absurd (sqDist_eq_zero heq.symm) h

/-- Proper rotation matrices: orthogonal with determinant one.  This is the
class of linear parts produced by the Procrustes solver of spec section 4.2
(reflections are corrected away). -/
def IsRotation (A : M3) : Prop := Aᵀ * A = 1 ∧ A.det = 1

theorem isRotation_one : IsRotation 1 := by
  constructor
  · simp
  · simp

theorem IsRotation.mul_self_transpose {A : M3} (h : IsRotation A) : A * Aᵀ = 1 :=
  Matrix.mul_eq_one_comm.mp h.1

theorem IsRotation.transpose {A : M3} (h : IsRotation A) : IsRotation Aᵀ := by
  refine ⟨?_, ?_⟩
  · rw [Matrix.transpose_transpose]
    exact h.mul_self_transpose
  · rw [Matrix.det_transpose]
    exact h.2

theorem IsRotation.mul {A B : M3} (hA : IsRotation A) (hB : IsRotation B) :
    IsRotation (A * B) := by
  refine ⟨?_, ?_⟩
  · rw [Matrix.transpose_mul, Matrix.mul_assoc, ← Matrix.mul_assoc Aᵀ A B, hA.1,
      Matrix.one_mul, hB.1]
  · rw [Matrix.det_mul, hA.2, hB.2, one_mul]

/-- Orthogonal matrices preserve the dot product of vectors. -/
theorem IsRotation.mulVec_dot {A : M3} (h : IsRotation A) (x y : Pt) :
    A.mulVec x ⬝ᵥ A.mulVec y = x ⬝ᵥ y := by
  rw [dotProduct_mulVec, ← Matrix.vecMul_transpose, Matrix.vecMul_vecMul, h.1,
    Matrix.vecMul_one]

theorem IsRotation.mulVec_cancel {A : M3} (h : IsRotation A) (x : Pt) :
    Aᵀ.mulVec (A.mulVec x) = x := by
  rw [Matrix.mulVec_mulVec, h.1, Matrix.one_mulVec]

/-- Modelled from the spec: rotation about the X axis by an angle in radians
(spec section 3; the source helper `rotation` in `mne.transforms` is not under
`src/`). -/
def rotation_x (a : ℝ) : M3 :=
  !![1, 0, 0; 0, Real.cos a, -Real.sin a; 0, Real.sin a, Real.cos a]

/-- Modelled from the spec: rotation about the Y axis by an angle in radians. -/
def rotation_y (a : ℝ) : M3 :=
  !![Real.cos a, 0, Real.sin a; 0, 1, 0; -Real.sin a, 0, Real.cos a]

/-- Modelled from the spec: rotation about the Z axis by an angle in radians. -/
def rotation_z (a : ℝ) : M3 :=
  !![Real.cos a, -Real.sin a, 0; Real.sin a, Real.cos a, 0; 0, 0, 1]

/-- Modelled from the spec: the rotation determined by three rotation angles,
applied in the fixed axis order X, Y, Z (spec section 3; stands in for the
source helper `rotation` of `mne.transforms`, absent from `src/`). -/
def rotation3d (x y z : ℝ) : M3 := rotation_z z * rotation_y y * rotation_x x

theorem isRotation_rotation_x (a : ℝ) : IsRotation (rotation_x a) := by
  have ht : (rotation_x a)ᵀ =
      !![1, 0, 0; 0, Real.cos a, Real.sin a; 0, -Real.sin a, Real.cos a] := by
    rw [eta_fin_three (rotation_x a)ᵀ]
    simp [rotation_x, Matrix.vecHead, Matrix.vecTail]
  constructor
  · rw [ht, rotation_x, Matrix.mul_fin_three, one_fin_three]
    ext i j
    fin_cases i <;> fin_cases j <;> simp [Matrix.vecHead, Matrix.vecTail] <;>
      ring_nf <;> nlinarith [Real.sin_sq_add_cos_sq a]
  · rw [rotation_x, Matrix.det_fin_three]
    simp [Matrix.vecHead, Matrix.vecTail]
    ring_nf
    nlinarith [Real.sin_sq_add_cos_sq a]

theorem isRotation_rotation_y (a : ℝ) : IsRotation (rotation_y a) := by
  have ht : (rotation_y a)ᵀ =
      !![Real.cos a, 0, -Real.sin a; 0, 1, 0; Real.sin a, 0, Real.cos a] := by
    rw [eta_fin_three (rotation_y a)ᵀ]
    simp [rotation_y, Matrix.vecHead, Matrix.vecTail]
  constructor
  · rw [ht, rotation_y, Matrix.mul_fin_three, one_fin_three]
    ext i j
    fin_cases i <;> fin_cases j <;> simp [Matrix.vecHead, Matrix.vecTail] <;>
      ring_nf <;> nlinarith [Real.sin_sq_add_cos_sq a]
  · rw [rotation_y, Matrix.det_fin_three]
    simp [Matrix.vecHead, Matrix.vecTail]
    ring_nf
    nlinarith [Real.sin_sq_add_cos_sq a]

theorem isRotation_rotation_z (a : ℝ) : IsRotation (rotation_z a) := by
  have ht : (rotation_z a)ᵀ =
      !![Real.cos a, Real.sin a, 0; -Real.sin a, Real.cos a, 0; 0, 0, 1] := by
    rw [eta_fin_three (rotation_z a)ᵀ]
    simp [rotation_z, Matrix.vecHead, Matrix.vecTail]
  constructor
  · rw [ht, rotation_z, Matrix.mul_fin_three, one_fin_three]
    ext i j
    fin_cases i <;> fin_cases j <;> simp [Matrix.vecHead, Matrix.vecTail] <;>
      ring_nf <;> nlinarith [Real.sin_sq_add_cos_sq a]
  · rw [rotation_z, Matrix.det_fin_three]
    simp [Matrix.vecHead, Matrix.vecTail]
    ring_nf
    nlinarith [Real.sin_sq_add_cos_sq a]

theorem isRotation_rotation3d (x y z : ℝ) : IsRotation (rotation3d x y z) :=
  ((isRotation_rotation_z z).mul (isRotation_rotation_y y)).mul (isRotation_rotation_x x)

/-- Affine spatial transform: a linear part plus an offset.  This is the value
the matched-point fitter solves for (spec sections 3 and 4.2). -/
structure Xfm where
  lin : M3
  off : Pt

/-- Application of a transform to a point. -/
def applyXfm (T : Xfm) (x : Pt) : Pt := T.lin.mulVec x + T.off

/-- Summed squared residual of a transform over matched point sets: the
least-squares objective minimised by the closed-form fitter (spec 4.2). -/
def sqErr {n : ℕ} (T : Xfm) (src tgt : Fin n → Pt) : ℝ :=
  ∑ i, sqDist (applyXfm T (src i)) (tgt i)

theorem sqErr_nonneg {n : ℕ} (T : Xfm) (src tgt : Fin n → Pt) : 0 ≤ sqErr T src tgt :=
  Finset.sum_nonneg fun _ _ => sqDist_nonneg _ _

/-- Admissible transforms of a rotation-only fit: proper rotation and zero
translation (`translate=False`, no scaling). -/
def RotOnly (T : Xfm) : Prop := IsRotation T.lin ∧ T.off = 0

/-- Admissible transforms of a rigid fit: proper rotation plus free
translation (the default mode of `fit_matched_points`). -/
def Rigid (T : Xfm) : Prop := IsRotation T.lin

/-- Admissible transforms of a similarity fit: uniform positive scale times a
proper rotation, plus free translation (`scale` enabled, uniform). -/
def Similarity (T : Xfm) : Prop :=
  ∃ (s : ℝ) (R : M3), 0 < s ∧ IsRotation R ∧ T.lin = s • R

/-- Best-fit characterisation of the closed-form fitter (spec 4.2): an
admissible transform minimising the summed squared point distance over the
admissible class. -/
def IsBestFit {n : ℕ} (Adm : Xfm → Prop) (src tgt : Fin n → Pt) (T : Xfm) : Prop :=
  Adm T ∧ ∀ U, Adm U → sqErr T src tgt ≤ sqErr U src tgt

/-- A best fit reproduces the targets exactly whenever some admissible
transform does (the minimum of a nonnegative objective that attains zero). -/
theorem IsBestFit.exact {n : ℕ} {Adm : Xfm → Prop} {src tgt : Fin n → Pt} {T U : Xfm}
    (hT : IsBestFit Adm src tgt T) (hU : Adm U)
    (hex : ∀ i, applyXfm U (src i) = tgt i) :
    ∀ i, applyXfm T (src i) = tgt i := by
  have hU0 : sqErr U src tgt = 0 :=
    Finset.sum_eq_zero fun i _ => by rw [hex i, sqDist_self]
  have h1 : sqErr T src tgt ≤ 0 := hU0 ▸ hT.2 U hU
  have h0 : sqErr T src tgt = 0 := le_antisymm h1 (sqErr_nonneg T src tgt)
  intro i
  apply sqDist_eq_zero
  exact (Finset.sum_eq_zero_iff_of_nonneg
    (fun i _ => sqDist_nonneg _ _)).1 h0 i (Finset.mem_univ i)

/-- Error outcomes of the closed-form fitter (spec section 7). -/
inductive FitError
  | insufficientPoints
  | toleranceExceeded
deriving DecidableEq

/-- Result of a fitter call: a transform, or a raised error. -/
inductive FitResult
  | ok (T : Xfm)
  | error (e : FitError)

/-- Some matched pair leaves a residual point distance above the bound
(distances compared through their squares, so no square root is needed). -/
def residExceeds {n : ℕ} (T : Xfm) (src tgt : Fin n → Pt) (tol : ℝ) : Prop :=
  ∃ i, tol ^ 2 < sqDist (applyXfm T (src i)) (tgt i)

/-- Modelled from the spec: relational characterisation of
`fit_matched_points` of `mne.coreg`, whose implementation is absent from
`src/`.  With fewer than 3 points the call fails with InsufficientPoints
(spec 4.2); otherwise the closed-form solver returns a best-fit admissible
transform, except that when a tolerance is supplied and the maximum
per-point residual of the solved transform exceeds it, the call fails with
ToleranceExceeded instead of returning the transform (spec 4.2 and 7). -/
def fit_matched_points {n : ℕ} (Adm : Xfm → Prop) (src tgt : Fin n → Pt)
    (tol : Option ℝ) (r : FitResult) : Prop :=
  if 3 ≤ n then
    ∃ T, IsBestFit Adm src tgt T ∧
      match tol with
      | none => r = FitResult.ok T
      | some b =>
          (residExceeds T src tgt b ∧ r = FitResult.error FitError.toleranceExceeded) ∨
          (¬ residExceeds T src tgt b ∧ r = FitResult.ok T)
  else r = FitResult.error FitError.insufficientPoints

/-- Cross product of two 3-vectors, used to express non-collinearity of the
three fiducial points (spec 4.2: at least 3 non-collinear points determine
the rotation uniquely). -/
def cross3 (u v : Pt) : Pt :=
  ![u 1 * v 2 - u 2 * v 1, u 2 * v 0 - u 0 * v 2, u 0 * v 1 - u 1 * v 0]

theorem cross3_c0 (u v : Pt) : cross3 u v 0 = u 1 * v 2 - u 2 * v 1 := rfl

theorem cross3_c1 (u v : Pt) : cross3 u v 1 = u 2 * v 0 - u 0 * v 2 := rfl

theorem cross3_c2 (u v : Pt) : cross3 u v 2 = u 0 * v 1 - u 1 * v 0 := rfl

theorem dotProduct_expand (x y : Pt) :
    x ⬝ᵥ y = x 0 * y 0 + x 1 * y 1 + x 2 * y 2 := by
  simp [dotProduct, Fin.sum_univ_three]

theorem dot_cross3_left (u v : Pt) : u ⬝ᵥ cross3 u v = 0 := by
  rw [dotProduct_expand, cross3_c0, cross3_c1, cross3_c2]
  ring

theorem dot_cross3_right (u v : Pt) : v ⬝ᵥ cross3 u v = 0 := by
  rw [dotProduct_expand, cross3_c0, cross3_c1, cross3_c2]
  ring

theorem cross3_bac_cab (x u v : Pt) :
    cross3 x (cross3 u v) = (x ⬝ᵥ v) • u - (x ⬝ᵥ u) • v := by
  funext j
  fin_cases j <;>
    simp [cross3, dotProduct_expand, Pi.smul_apply, smul_eq_mul] <;> ring

theorem pt_ext {x y : Pt} (h0 : x 0 = y 0) (h1 : x 1 = y 1) (h2 : x 2 = y 2) :
    x = y := by
  funext j
  fin_cases j
  · exact h0
  · exact h1
  · exact h2

theorem cross3_eq_zero_parallel {x w : Pt} (hw : w ≠ 0) (h : cross3 x w = 0) :
    ∃ c : ℝ, x = c • w := by
  have e0 : x 1 * w 2 - x 2 * w 1 = 0 := by
    have h0 := congrFun h 0
    simpa [cross3] using h0
  have e1 : x 2 * w 0 - x 0 * w 2 = 0 := by
    have h1 := congrFun h 1
    simpa [cross3] using h1
  have e2 : x 0 * w 1 - x 1 * w 0 = 0 := by
    have h2 := congrFun h 2
    simpa [cross3] using h2
  rcases ne_or_eq (w 0) 0 with h0 | h0
  · refine ⟨x 0 / w 0, pt_ext ?_ ?_ ?_⟩ <;>
      simp only [Pi.smul_apply, smul_eq_mul] <;> field_simp <;>
      first
      | linear_combination e0
      | linear_combination -e0
      | linear_combination 2 * e0
      | linear_combination -2 * e0
      | linear_combination e1
      | linear_combination -e1
      | linear_combination 2 * e1
      | linear_combination -2 * e1
      | linear_combination e2
      | linear_combination -e2
      | linear_combination 2 * e2
      | linear_combination -2 * e2
  rcases ne_or_eq (w 1) 0 with h1 | h1
  · refine ⟨x 1 / w 1, pt_ext ?_ ?_ ?_⟩ <;>
      simp only [Pi.smul_apply, smul_eq_mul] <;> field_simp <;>
      first
      | linear_combination e0
      | linear_combination -e0
      | linear_combination 2 * e0
      | linear_combination -2 * e0
      | linear_combination e1
      | linear_combination -e1
      | linear_combination 2 * e1
      | linear_combination -2 * e1
      | linear_combination e2
      | linear_combination -e2
      | linear_combination 2 * e2
      | linear_combination -2 * e2
  rcases ne_or_eq (w 2) 0 with h2 | h2
  · refine ⟨x 2 / w 2, pt_ext ?_ ?_ ?_⟩ <;>
      simp only [Pi.smul_apply, smul_eq_mul] <;> field_simp <;>
      first
      | linear_combination e0
      | linear_combination -e0
      | linear_combination 2 * e0
      | linear_combination -2 * e0
      | linear_combination e1
      | linear_combination -e1
      | linear_combination 2 * e1
      | linear_combination -2 * e1
      | linear_combination e2
      | linear_combination -e2
      | linear_combination 2 * e2
      | linear_combination -2 * e2
  · exfalso
    apply hw
    exact pt_ext h0 h1 h2

/-- A proper rotation that fixes two vectors with nonzero cross product is the
identity (the uniqueness half of the Procrustes rotation of spec 4.2). -/
theorem rotation_fix_two {C : M3} (hC : IsRotation C) {u v : Pt}
    (hu : C.mulVec u = u) (hv : C.mulVec v = v) (hnc : cross3 u v ≠ 0) :
    C = 1 := by
  have hwu : u ⬝ᵥ cross3 u v = 0 := dot_cross3_left u v
  have hwv : v ⬝ᵥ cross3 u v = 0 := dot_cross3_right u v
  have hCw_u : u ⬝ᵥ C.mulVec (cross3 u v) = 0 := by
    have h := hC.mulVec_dot u (cross3 u v)
    rw [hu] at h
    rw [h]
    exact hwu
  have hCw_v : v ⬝ᵥ C.mulVec (cross3 u v) = 0 := by
    have h := hC.mulVec_dot v (cross3 u v)
    rw [hv] at h
    rw [h]
    exact hwv
  have hx : cross3 (C.mulVec (cross3 u v)) (cross3 u v) = 0 := by
    rw [cross3_bac_cab]
    have h1 : C.mulVec (cross3 u v) ⬝ᵥ v = 0 := by
      rw [dotProduct_comm]
      exact hCw_v
    have h2 : C.mulVec (cross3 u v) ⬝ᵥ u = 0 := by
      rw [dotProduct_comm]
      exact hCw_u
    rw [h1, h2]
    simp
  obtain ⟨c, hc⟩ := cross3_eq_zero_parallel hnc hx
  have hww : cross3 u v ⬝ᵥ cross3 u v ≠ 0 := fun h =>
    hnc (dotProduct_self_eq_zero.mp h)
  have hnorm : C.mulVec (cross3 u v) ⬝ᵥ C.mulVec (cross3 u v) =
      cross3 u v ⬝ᵥ cross3 u v := hC.mulVec_dot _ _
  rw [hc] at hnorm
  have hc2 : c ^ 2 * (cross3 u v ⬝ᵥ cross3 u v) = cross3 u v ⬝ᵥ cross3 u v := by
    rw [smul_dotProduct, dotProduct_smul, smul_eq_mul, smul_eq_mul] at hnorm
    linear_combination hnorm
  have hNmat : (Matrix.of ![u, v, cross3 u v])ᵀ.det = cross3 u v ⬝ᵥ cross3 u v := by
    rw [Matrix.det_transpose, Matrix.det_fin_three]
    simp only [Matrix.of_apply, Matrix.cons_val_zero, Matrix.cons_val_one,
      Matrix.head_cons, cross3_c0, cross3_c1, cross3_c2, dotProduct_expand]
    simp [cross3]
    ring
  have hdet_ne : (Matrix.of ![u, v, cross3 u v])ᵀ.det ≠ 0 := by
    rw [hNmat]
    exact hww
  have hmul : C * (Matrix.of ![u, v, cross3 u v])ᵀ =
      (Matrix.of ![u, v, cross3 u v])ᵀ * Matrix.diagonal ![(1 : ℝ), 1, c] := by
    ext i j
    rw [Matrix.mul_apply, Matrix.mul_apply]
    fin_cases j
    · have h := congrFun hu i
      simp only [Matrix.mulVec, dotProduct] at h
      simpa [Matrix.transpose_apply, Matrix.diagonal, Fin.sum_univ_three] using h
    · have h := congrFun hv i
      simp only [Matrix.mulVec, dotProduct] at h
      simpa [Matrix.transpose_apply, Matrix.diagonal, Fin.sum_univ_three] using h
    · have h := congrFun hc i
      simp only [Pi.smul_apply, smul_eq_mul] at h
      have h2 : (C.mulVec (cross3 u v)) i = c * cross3 u v i := by
        rw [hc]
        simp [Pi.smul_apply, smul_eq_mul]
      simp only [Matrix.mulVec, dotProduct] at h2
      simpa [Matrix.transpose_apply, Matrix.diagonal, Fin.sum_univ_three, mul_comm] using h2
  have hc1 : c = 1 := by
    have hdeq := congrArg Matrix.det hmul
    rw [Matrix.det_mul, Matrix.det_mul, hC.2, one_mul, Matrix.det_diagonal,
      Fin.prod_univ_three] at hdeq
    have hsimp : (![(1 : ℝ), 1, c]) 0 * (![(1 : ℝ), 1, c]) 1 * (![(1 : ℝ), 1, c]) 2 = c := by
      simp
    rw [hsimp] at hdeq
    have hcan : (Matrix.of ![u, v, cross3 u v])ᵀ.det * 1 =
        (Matrix.of ![u, v, cross3 u v])ᵀ.det * c := by
      rw [mul_one]
      exact hdeq
    exact (mul_left_cancel₀ hdet_ne hcan).symm
  have hdiag1 : Matrix.diagonal ![(1 : ℝ), 1, c] = 1 := by
    rw [hc1]
    have : (![(1 : ℝ), 1, 1]) = fun _ => (1 : ℝ) := by
      funext j
      fin_cases j <;> rfl
    rw [this, Matrix.diagonal_one]
  have hmul1 : C * (Matrix.of ![u, v, cross3 u v])ᵀ = (Matrix.of ![u, v, cross3 u v])ᵀ := by
    rw [hmul, hdiag1, Matrix.mul_one]
  have hinv : (Matrix.of ![u, v, cross3 u v])ᵀ * ((Matrix.of ![u, v, cross3 u v])ᵀ)⁻¹ = 1 :=
    Matrix.mul_nonsing_inv _ (isUnit_iff_ne_zero.mpr hdet_ne)
  calc C = C * 1 := by rw [Matrix.mul_one]
    _ = C * ((Matrix.of ![u, v, cross3 u v])ᵀ * ((Matrix.of ![u, v, cross3 u v])ᵀ)⁻¹) := by
        rw [hinv]
    _ = (C * (Matrix.of ![u, v, cross3 u v])ᵀ) * ((Matrix.of ![u, v, cross3 u v])ᵀ)⁻¹ := by
        rw [Matrix.mul_assoc]
    _ = (Matrix.of ![u, v, cross3 u v])ᵀ * ((Matrix.of ![u, v, cross3 u v])ᵀ)⁻¹ := by
        rw [hmul1]
    _ = 1 := hinv

/-- Two rigid transforms that agree on three non-collinear points are equal:
the uniqueness of the rigid fit used by `coregister_fiducials` (spec 4.2). -/
theorem rigid_unique {A B : M3} {a b : Pt} (hA : IsRotation A) (hB : IsRotation B)
    (p : Fin 3 → Pt)
    (hagree : ∀ i, A.mulVec (p i) + a = B.mulVec (p i) + b)
    (hnc : cross3 (p 1 - p 0) (p 2 - p 0) ≠ 0) : A = B ∧ a = b := by
  have hdiff : ∀ i j, A.mulVec (p i - p j) = B.mulVec (p i - p j) := by
    intro i j
    rw [Matrix.mulVec_sub, Matrix.mulVec_sub]
    have hstep : (A.mulVec (p i) + a) - (A.mulVec (p j) + a) =
        (B.mulVec (p i) + b) - (B.mulVec (p j) + b) := by
      rw [hagree i, hagree j]
    simpa [add_sub_add_right_eq_sub] using hstep
  have hCrot : IsRotation (Bᵀ * A) := hB.transpose.mul hA
  have hCu : (Bᵀ * A).mulVec (p 1 - p 0) = p 1 - p 0 := by
    rw [← Matrix.mulVec_mulVec, hdiff 1 0, hB.mulVec_cancel]
  have hCv : (Bᵀ * A).mulVec (p 2 - p 0) = p 2 - p 0 := by
    rw [← Matrix.mulVec_mulVec, hdiff 2 0, hB.mulVec_cancel]
  have hC1 : Bᵀ * A = 1 := rotation_fix_two hCrot hCu hCv hnc
  have hAB : A = B := by
    have hmul := congrArg (fun M => B * M) hC1
    simp only at hmul
    rw [← Matrix.mul_assoc, hB.mul_self_transpose, Matrix.one_mul, Matrix.mul_one] at hmul
    exact hmul
  refine ⟨hAB, ?_⟩
  have h0 := hagree 0
  rw [hAB] at h0
  exact add_left_cancel h0

/-- Coordinate frames of the data model (spec section 3). -/
inductive CoordFrame
  | head
  | mri
  | mri_voxel
  | unknown
deriving DecidableEq

/-- Frame-tagged affine transform (spec 4.1): the 4x4 homogeneous matrix is
represented by its linear block and offset, together with both frame tags. -/
structure Transform where
  fromFrame : CoordFrame
  toFrame : CoordFrame
  lin : M3
  off : Pt

/-- Modelled from the spec: `coregister_fiducials` of `mne.coreg`, absent from
`src/`.  It fits the three head-frame fiducials to the three MRI-frame
fiducials with the rigid closed-form fitter (rotation and translation, no
scaling) and returns the head-to-mri Transform. -/
def coregister_fiducials (headFids mriFids : Fin 3 → Pt) (T : Transform) : Prop :=
  T.fromFrame = CoordFrame.head ∧ T.toFrame = CoordFrame.mri ∧
    IsBestFit Rigid headFids mriFids ⟨T.lin, T.off⟩

/-- Scale handling modes of the session (spec 4.4, `set_scale_mode`). -/
inductive ScaleMode
  | off
  | uniform
  | threeAxis
deriving DecidableEq

/-- Fiducial matching modes of the session (spec 4.4, `set_fid_match`). -/
inductive FidMatch
  | nearest
  | matched
deriving DecidableEq

/-- The 9-scalar similarity parameter vector (spec section 3): three rotation
angles, three translation offsets, three scale factors. -/
structure Params where
  rot : Pt
  tra : Pt
  sca : Pt

/-- Modelled from the spec: the point map derived from a parameter vector by
the fixed composition order scale, then rotate, then translate (spec 3). -/
def applyParams (p : Params) (x : Pt) : Pt :=
  (rotation3d (p.rot 0) (p.rot 1) (p.rot 2)).mulVec (fun j => p.sca j * x j) + p.tra

/-- Squared distance from a point to its nearest neighbour in a reference
point cloud (spec 4.3; zero for an empty reference). -/
def nearestSqDist (x : Pt) : List Pt → ℝ
  | [] => 0
  | q :: qs => qs.foldl (fun m r => min m (sqDist x r)) (sqDist x q)

/-- Modelled from the spec: the state of a `Coregistration` session (spec 3
and 4.4): current, last-applied and default parameters, the outlier filter
over head-shape points, the scale and fiducial-match modes, the grow-hair
offset, and the read-only head-shape points and MRI head-surface cloud. -/
structure Coregistration where
  hsp : List Pt
  surface : List Pt
  defaultParams : Params
  params : Params
  lastParams : Params
  extraPointsFilter : Option (List Bool)
  scaleMode : ScaleMode
  fidMatch : FidMatch
  growHair : ℝ

/-- Modelled from the spec: a fresh session starts at the default parameters
(also recorded as the last-applied parameters), with no outlier filter and
scale mode off. -/
def mkCoregistration (hsp surface : List Pt) (d : Params) (fm : FidMatch) :
    Coregistration :=
  ⟨hsp, surface, d, d, d, none, ScaleMode.off, fm, 0⟩

/-- Head-shape points that survive the outlier filter (spec 4.4: omitted
points are excluded from distance queries and fits). -/
def usableHsp (s : Coregistration) : List Pt :=
  match s.extraPointsFilter with
  | none => s.hsp
  | some m => ((s.hsp.zip m).filter fun pr => !pr.2).map Prod.fst

/-- Modelled from the spec: `compute_dig_mri_distances` returns, for every
usable head-shape point, its nearest-surface distance under the current
parameters; it is a pure query of the session state (spec 4.4). -/
def compute_dig_mri_distances (s : Coregistration) : List ℝ :=
  (usableHsp s).map fun p =>
    Real.sqrt (nearestSqDist (applyParams s.params p) s.surface)

/-- Outlier mask computed by `omit_head_shape_points` under the current
parameters: an entry is true exactly when the point's nearest-surface
distance exceeds the cutoff (spec 4.4). -/
def omitMask (s : Coregistration) (d : ℝ) : List Bool :=
  s.hsp.map fun p =>
    decide (d < Real.sqrt (nearestSqDist (applyParams s.params p) s.surface))

/-- Modelled from the spec: `omit_head_shape_points` stores the outlier mask
when the cutoff is positive and clears the filter entirely when it is not;
the non-positive case is a defined no-op-clear, not an error (spec 4.4, 7). -/
def omit_head_shape_points (d : ℝ) (s : Coregistration) : Coregistration :=
  if 0 < d then { s with extraPointsFilter := some (omitMask s d) }
  else { s with extraPointsFilter := none }

/-- Modelled from the spec: `reset` restores the parameters to the session's
fixed defaults and leaves the outlier filter untouched (spec 4.4). -/
def reset (s : Coregistration) : Coregistration :=
  { s with params := s.defaultParams }

/-- Modelled from the spec: constraint tying a fitted parameter vector to the
session's scale mode (spec 3 and 4.4): with scale mode off the fit does not
touch the scale factors, and with uniform mode the three fitted factors are
equal. -/
def FitRespectsScaleMode (s : Coregistration) (p : Params) : Prop :=
  (s.scaleMode = ScaleMode.off → p.sca = s.params.sca) ∧
  (s.scaleMode = ScaleMode.uniform → p.sca 1 = p.sca 0 ∧ p.sca 2 = p.sca 0)

/-- Parameter update performed by a successful `fit_fiducials` or `fit_icp`
call: the fitted parameters become both current and last-applied; nothing
else changes (spec 4.4: fits update the current parameters only). -/
def applyFit (s : Coregistration) (p : Params) : Coregistration :=
  { s with params := p, lastParams := p }

/-- Names of the mutating session operations (spec 4.4). -/
inductive Op
  | set_rotation
  | set_translation
  | set_scale
  | set_scale_mode
  | set_fid_match
  | set_grow_hair
  | omit_head_shape_points
  | fit_fiducials
  | fit_icp
  | reset
deriving DecidableEq

/-- Modelled from the spec: one mutating call on the session (spec 4.4).  The
`set_*` calls store their argument verbatim; the `fit_*` steps are
relational, with the fitted rotation and translation unconstrained and the
fitted scale constrained by the scale mode. -/
inductive Step : Op → Coregistration → Coregistration → Prop
  | set_rotation (s : Coregistration) (v : Pt) :
      Step Op.set_rotation s { s with params := { s.params with rot := v } }
  | set_translation (s : Coregistration) (v : Pt) :
      Step Op.set_translation s { s with params := { s.params with tra := v } }
  | set_scale (s : Coregistration) (v : Pt) :
      Step Op.set_scale s { s with params := { s.params with sca := v } }
  | set_scale_mode (s : Coregistration) (m : ScaleMode) :
      Step Op.set_scale_mode s { s with scaleMode := m }
  | set_fid_match (s : Coregistration) (m : FidMatch) :
      Step Op.set_fid_match s { s with fidMatch := m }
  | set_grow_hair (s : Coregistration) (v : ℝ) :
      Step Op.set_grow_hair s { s with growHair := v }
  | omit_head_shape_points (s : Coregistration) (d : ℝ) :
      Step Op.omit_head_shape_points s (omit_head_shape_points d s)
  | fit_fiducials (s : Coregistration) (p : Params) (h : FitRespectsScaleMode s p) :
      Step Op.fit_fiducials s (applyFit s p)
  | fit_icp (s : Coregistration) (p : Params) (h : FitRespectsScaleMode s p) :
      Step Op.fit_icp s (applyFit s p)
  | reset (s : Coregistration) :
      Step Op.reset s (reset s)

/-- Runs of session calls, tagged by the list of operations performed. -/
inductive Steps : List Op → Coregistration → Coregistration → Prop
  | nil (s : Coregistration) : Steps [] s s
  | cons {op : Op} {ops : List Op} {s t u : Coregistration} :
      Step op s t → Steps ops t u → Steps (op :: ops) s u

theorem step_defaultParams_eq {op : Op} {s s' : Coregistration}
    (h : Step op s s') : s'.defaultParams = s.defaultParams := by
  cases h <;>
    first
    | rfl
    | (unfold omit_head_shape_points; split <;> rfl)

theorem steps_defaultParams_eq {ops : List Op} {s s' : Coregistration}
    (h : Steps ops s s') : s'.defaultParams = s.defaultParams := by
  induction h with
  | nil s => rfl
  | cons hstep _ ih => rw [ih, step_defaultParams_eq hstep]

/-- Identity transform, used as a concrete fitter output in witnesses. -/
def identXfm : Xfm := ⟨1, 0⟩

/-- Six copies of the origin, a concrete matched point set. -/
def zero6 : Fin 6 → Pt := fun _ => 0

/-- Claim C1: for six points related by a rotation-only ground truth composed
about the X, Y and Z axes (covering the 2-6-3 rotation of the calibration
scenario), `fit_matched_points` with translation disallowed returns a
transform whose application to the source points recovers the target point
positions to 2-decimal accuracy. -/
theorem fit_matched_points_rotation_recovers (a b c : ℝ) (src tgt : Fin 6 → Pt)
    (hsrc : ∀ i, src i = (rotation3d a b c).mulVec (tgt i))
    (r : FitResult) (hrun : fit_matched_points RotOnly src tgt none r) :
    ∃ T, r = FitResult.ok T ∧
      ∀ i j, |applyXfm T (src i) j - tgt i j| ≤ 1 / 100 := by
  unfold fit_matched_points at hrun
  rw [if_pos (by norm_num : 3 ≤ 6)] at hrun
  obtain ⟨T, hbest, hr⟩ := hrun
  refine ⟨T, hr, ?_⟩
  have hrot := isRotation_rotation3d a b c
  have hexact : ∀ i, applyXfm ⟨(rotation3d a b c)ᵀ, 0⟩ (src i) = tgt i := by
    intro i
    rw [hsrc i]
    simp [applyXfm, hrot.mulVec_cancel]
  have hT := hbest.exact ⟨hrot.transpose, rfl⟩ hexact
  intro i j
  rw [hT i]
  norm_num [sub_self]

theorem fit_matched_points_rotation_recovers_witness :
    ∃ T, FitResult.ok identXfm = FitResult.ok T ∧
      ∀ i j, |applyXfm T (zero6 i) j - zero6 i j| ≤ 1 / 100 := by
  apply fit_matched_points_rotation_recovers 0 0 0 zero6 zero6
  · intro i
    simp [zero6]
  · unfold fit_matched_points
    rw [if_pos (by norm_num : 3 ≤ 6)]
    refine ⟨identXfm, ⟨⟨isRotation_one, rfl⟩, ?_⟩, rfl⟩
    intro U hU
    have h0 : sqErr identXfm zero6 zero6 = 0 := by
      apply Finset.sum_eq_zero
      intro i _
      simp [applyXfm, identXfm, zero6, sqDist_self]
    rw [h0]
    exact sqErr_nonneg U zero6 zero6

/-- Claim C2: for point sets related by a composed translation, rotation and
uniform scaling, `fit_matched_points` with translation allowed and uniform
scale enabled returns a transform whose application to the source points
recovers the target points within 1e-2. -/
theorem fit_matched_points_similarity_recovers (sc : ℝ) (R : M3) (t : Pt)
    (hsc : 0 < sc) (hR : IsRotation R) (src tgt : Fin 6 → Pt)
    (hsrc : ∀ i, src i = sc • R.mulVec (tgt i) + t)
    (r : FitResult) (hrun : fit_matched_points Similarity src tgt none r) :
    ∃ T, r = FitResult.ok T ∧
      ∀ i j, |applyXfm T (src i) j - tgt i j| ≤ 1 / 100 := by
  unfold fit_matched_points at hrun
  rw [if_pos (by norm_num : 3 ≤ 6)] at hrun
  obtain ⟨T, hbest, hr⟩ := hrun
  refine ⟨T, hr, ?_⟩
  have hadm : Similarity ⟨sc⁻¹ • Rᵀ, -(sc⁻¹ • Rᵀ.mulVec t)⟩ :=
    ⟨sc⁻¹, Rᵀ, inv_pos.mpr hsc, hR.transpose, rfl⟩
  have hexact : ∀ i, applyXfm ⟨sc⁻¹ • Rᵀ, -(sc⁻¹ • Rᵀ.mulVec t)⟩ (src i) = tgt i := by
    intro i
    rw [hsrc i]
    simp only [applyXfm, Matrix.smul_mulVec_assoc, Matrix.mulVec_add,
      Matrix.mulVec_smul, hR.mulVec_cancel, smul_add, smul_smul,
      inv_mul_cancel₀ (ne_of_gt hsc), mul_inv_cancel₀ (ne_of_gt hsc),
      one_smul, neg_smul]
    abel
  have hT := hbest.exact hadm hexact
  intro i j
  rw [hT i]
  norm_num [sub_self]

/-- Concrete translation offset used in the similarity witness. -/
def tC2 : Pt := ![3, 3, 3]

/-- Six copies of the offset point: sources of the similarity witness. -/
def srcC2 : Fin 6 → Pt := fun _ => tC2

/-- Transform undoing the offset: the concrete similarity fit result. -/
def negXfm : Xfm := ⟨1, -tC2⟩

theorem fit_matched_points_similarity_recovers_witness :
    ∃ T, FitResult.ok negXfm = FitResult.ok T ∧
      ∀ i j, |applyXfm T (srcC2 i) j - zero6 i j| ≤ 1 / 100 := by
  apply fit_matched_points_similarity_recovers 2 1 tC2 (by norm_num) isRotation_one
  · intro i
    simp [srcC2, zero6]
  · unfold fit_matched_points
    rw [if_pos (by norm_num : 3 ≤ 6)]
    refine ⟨negXfm, ⟨⟨1, 1, by norm_num, isRotation_one, (one_smul ℝ (1 : M3)).symm⟩, ?_⟩, rfl⟩
    intro U hU
    have h0 : sqErr negXfm srcC2 zero6 = 0 := by
      apply Finset.sum_eq_zero
      intro i _
      have happ : applyXfm negXfm (srcC2 i) = zero6 i := by
        simp [applyXfm, negXfm, srcC2, zero6]
      rw [happ, sqDist_self]
    rw [h0]
    exact sqErr_nonneg U srcC2 zero6

/-- Three copies of the origin: the source points of the tolerance witness. -/
def srcPert : Fin 3 → Pt := fun _ => 0

/-- Targets with the first correspondence point pushed 20 units away along
the X axis, mirroring the perturbation of the tolerance scenario. -/
def tgtPert : Fin 3 → Pt := ![![20, 0, 0], 0, 0]

/-- Claim C3: when the solved transform leaves a maximum per-point residual
above the supplied strict tolerance (as after perturbing one correspondence
point far from its true position), `fit_matched_points` fails with
ToleranceExceeded rather than returning a transform. -/
theorem fit_matched_points_tolerance_exceeded {n : ℕ} (Adm : Xfm → Prop)
    (src tgt : Fin n → Pt) (b : ℝ) (r : FitResult) (hn : 3 ≤ n)
    (hex : ∀ T, IsBestFit Adm src tgt T → residExceeds T src tgt b)
    (hrun : fit_matched_points Adm src tgt (some b) r) :
    r = FitResult.error FitError.toleranceExceeded ∧
      ∀ T, r ≠ FitResult.ok T := by
  unfold fit_matched_points at hrun
  rw [if_pos hn] at hrun
  obtain ⟨T, hbest, hcase⟩ := hrun
  rcases hcase with ⟨hexc, hr⟩ | ⟨hnexc, hr⟩
  · subst hr
    exact ⟨rfl, fun U h => FitResult.noConfusion h⟩
  · exact absurd (hex T hbest) hnexc

theorem fit_matched_points_tolerance_exceeded_witness :
    FitResult.error FitError.toleranceExceeded =
        FitResult.error FitError.toleranceExceeded ∧
      ∀ T, FitResult.error FitError.toleranceExceeded ≠ FitResult.ok T := by
  have happly : ∀ T : Xfm, RotOnly T → ∀ i, applyXfm T (srcPert i) = (0 : Pt) := by
    intro T hT i
    simp [applyXfm, srcPert, hT.2]
  have h400 : sqDist (0 : Pt) (tgtPert 0) = 400 := by
    simp [sqDist, tgtPert, Fin.sum_univ_three]
    norm_num
  have hrot : RotOnly identXfm := ⟨isRotation_one, rfl⟩
  have herr : ∀ T : Xfm, RotOnly T →
      sqErr T srcPert tgtPert = sqErr identXfm srcPert tgtPert := by
    intro T hT
    unfold sqErr
    apply Finset.sum_congr rfl
    intro i _
    rw [happly T hT i, happly identXfm hrot i]
  have hbestfit : IsBestFit RotOnly srcPert tgtPert identXfm :=
    ⟨hrot, fun U hU => le_of_eq (herr U hU).symm⟩
  apply fit_matched_points_tolerance_exceeded RotOnly srcPert tgtPert 10
  · norm_num
  · intro T hbest
    refine ⟨0, ?_⟩
    rw [happly T hbest.1 0, h400]
    norm_num
  · unfold fit_matched_points
    rw [if_pos (by norm_num : 3 ≤ 3)]
    refine ⟨identXfm, hbestfit, Or.inl ⟨⟨0, ?_⟩, rfl⟩⟩
    rw [happly identXfm hrot 0, h400]
    norm_num

/-- Default parameter vector: identity rotation and translation, unit scale
(spec section 3). -/
def identParams : Params := ⟨0, 0, fun _ => 1⟩

/-- Concrete empty session used by witnesses. -/
def coregW : Coregistration := mkCoregistration [] [] identParams FidMatch.matched

/-- Concrete session with one head-shape point and an empty surface. -/
def coregOne : Coregistration := mkCoregistration [0] [] identParams FidMatch.matched

/-- Concrete session whose single head-shape point lies exactly on the
one-point MRI surface. -/
def coregOn : Coregistration := mkCoregistration [0] [0] identParams FidMatch.matched

/-- Unit point along the first axis. -/
def ptE0 : Pt := ![1, 0, 0]

/-- Concrete session whose single head-shape point lies off the surface. -/
def coregOff : Coregistration := mkCoregistration [0] [ptE0] identParams FidMatch.matched

theorem applyParams_ident_zero : applyParams identParams 0 = 0 := by
  unfold applyParams
  have h : (fun j => identParams.sca j * (0 : Pt) j) = (0 : Pt) := by
    funext j
    simp [identParams]
  rw [h, Matrix.mulVec_zero]
  simp [identParams]

/-- Claim C4: for every sequence of session calls (`set_*`, `fit_*`, omit and
reset operations), calling `reset` afterwards restores the parameter vector
exactly to the session's documented default parameters. -/
theorem reset_restores_default_parameters (hsp surf : List Pt) (d : Params)
    (fm : FidMatch) (ops : List Op) (s : Coregistration)
    (h : Steps ops (mkCoregistration hsp surf d fm) s) :
    (reset s).params = d :=
  steps_defaultParams_eq h

theorem reset_restores_default_parameters_witness :
    (reset { coregW with params := { coregW.params with rot := ![1, 2, 3] } }).params
      = identParams := by
  apply reset_restores_default_parameters [] [] identParams FidMatch.matched
    [Op.set_rotation]
  exact Steps.cons (Step.set_rotation coregW ![1, 2, 3]) (Steps.nil _)

/-- Claim C5: `omit_head_shape_points` with a positive distance stores an
outlier mask covering every head-shape point (in particular a non-empty mask
when head-shape points exist), while a non-positive distance clears the
filter entirely; both cases are ordinary returns of the total modelled
operation, not errors. -/
theorem omit_head_shape_points_filter_spec (s : Coregistration) (d : ℝ) :
    (0 < d → (omit_head_shape_points d s).extraPointsFilter = some (omitMask s d) ∧
      (omitMask s d).length = s.hsp.length ∧ (s.hsp ≠ [] → omitMask s d ≠ [])) ∧
    (d ≤ 0 → (omit_head_shape_points d s).extraPointsFilter = none) := by
  constructor
  · intro hd
    refine ⟨?_, ?_, ?_⟩
    · unfold omit_head_shape_points
      rw [if_pos hd]
    · exact List.length_map _ _
    · intro hne h
      exact hne (List.map_eq_nil_iff.mp h)
  · intro hd
    unfold omit_head_shape_points
    rw [if_neg (not_lt.mpr hd)]

theorem omit_head_shape_points_filter_spec_witness :
    (omit_head_shape_points 1 coregOne).extraPointsFilter = some (omitMask coregOne 1) ∧
      omitMask coregOne 1 ≠ [] ∧
      (omit_head_shape_points (-1) coregOne).extraPointsFilter = none :=
  ⟨((omit_head_shape_points_filter_spec coregOne 1).1 (by norm_num)).1,
    ((omit_head_shape_points_filter_spec coregOne 1).1 (by norm_num)).2.2
      (by simp [coregOne, mkCoregistration]),
    (omit_head_shape_points_filter_spec coregOne (-1)).2 (by norm_num)⟩

theorem step_scale_invariant {op : Op} {s s' : Coregistration}
    (h : Step op s s') (hmode : s.scaleMode = ScaleMode.off)
    (hdef : s.defaultParams.sca = fun _ => (1 : ℝ))
    (hsca : s.params.sca = fun _ => (1 : ℝ))
    (hop1 : op ≠ Op.set_scale) (hop2 : op ≠ Op.set_scale_mode) :
    s'.scaleMode = ScaleMode.off ∧ (s'.defaultParams.sca = fun _ => (1 : ℝ)) ∧
      s'.params.sca = fun _ => (1 : ℝ) := by
  cases h with
  | set_rotation s v => exact ⟨hmode, hdef, hsca⟩
  | set_translation s v => exact ⟨hmode, hdef, hsca⟩
  | set_scale s v => exact absurd rfl hop1
  | set_scale_mode s m => exact absurd rfl hop2
  | set_fid_match s m => exact ⟨hmode, hdef, hsca⟩
  | set_grow_hair s v => exact ⟨hmode, hdef, hsca⟩
  | omit_head_shape_points s d =>
      unfold omit_head_shape_points
      split <;> exact ⟨hmode, hdef, hsca⟩
  | fit_fiducials s p hp =>
      exact ⟨hmode, hdef, (hp.1 hmode).trans hsca⟩
  | fit_icp s p hp =>
      exact ⟨hmode, hdef, (hp.1 hmode).trans hsca⟩
  | reset s => exact ⟨hmode, hdef, hdef⟩

theorem steps_scale_invariant : ∀ {ops : List Op} {s s' : Coregistration},
    Steps ops s s' →
    (∀ op ∈ ops, op ≠ Op.set_scale ∧ op ≠ Op.set_scale_mode) →
    s.scaleMode = ScaleMode.off →
    (s.defaultParams.sca = fun _ => (1 : ℝ)) →
    (s.params.sca = fun _ => (1 : ℝ)) →
    s'.scaleMode = ScaleMode.off ∧ (s'.defaultParams.sca = fun _ => (1 : ℝ)) ∧
      s'.params.sca = fun _ => (1 : ℝ) := by
  intro ops s s' h
  induction h with
  | nil s =>
      intro _ h1 h2 h3
      exact ⟨h1, h2, h3⟩
  | cons hstep hrest ih =>
      intro hops hmode hdef hsca
      obtain ⟨m1, m2, m3⟩ := step_scale_invariant hstep hmode hdef hsca
        (hops _ (List.mem_cons_self _ _)).1 (hops _ (List.mem_cons_self _ _)).2
      exact ih (fun op hop => hops op (List.mem_cons_of_mem _ hop)) m1 m2 m3

/-- Claim C9 (amended): when the scale mode is off and the session's default
scale is unit, the three scale parameters remain exactly [1,1,1] through
every sequence of operations that does not contain `set_scale` or
`set_scale_mode` — in particular through `fit_fiducials`, `fit_icp`,
`omit_head_shape_points`, `reset` and the remaining `set_*` calls.  (As
stated over all operations the claim fails: `set_scale` stores a non-unit
vector verbatim even with the scale mode off.) -/
theorem scale_mode_off_keeps_unit_scale (ops : List Op) (s s' : Coregistration)
    (h : Steps ops s s') (hmode : s.scaleMode = ScaleMode.off)
    (hdef : s.defaultParams.sca = fun _ => (1 : ℝ))
    (hsca : s.params.sca = fun _ => (1 : ℝ))
    (hops : ∀ op ∈ ops, op ≠ Op.set_scale ∧ op ≠ Op.set_scale_mode) :
    s'.params.sca = fun _ => (1 : ℝ) :=
  (steps_scale_invariant h hops hmode hdef hsca).2.2

theorem scale_mode_off_keeps_unit_scale_witness :
    (applyFit coregW identParams).params.sca = fun _ => (1 : ℝ) := by
  apply scale_mode_off_keeps_unit_scale [Op.fit_fiducials] coregW
  · refine Steps.cons (Step.fit_fiducials coregW identParams ⟨fun _ => rfl, ?_⟩)
      (Steps.nil _)
    intro hmode
    simp [coregW, mkCoregistration] at hmode
  · rfl
  · rfl
  · rfl
  · intro op hop
    have h1 : op = Op.fit_fiducials := by simpa using hop
    subst h1
    exact ⟨by decide, by decide⟩

/-- Counterexample to claim C9 as stated: with the scale mode off and unit
scale parameters, the `set_scale` operation (spec 4.4: stores its argument
verbatim) moves the scale parameters away from [1,1,1]. -/
theorem set_scale_breaks_unit_scale :
    coregW.scaleMode = ScaleMode.off ∧
      (coregW.params.sca = fun _ => (1 : ℝ)) ∧
      Step Op.set_scale coregW
        { coregW with params := { coregW.params with sca := ![2, 2, 2] } } ∧
      ¬ ({ coregW with params := { coregW.params with sca := ![2, 2, 2] } }.params.sca
          = fun _ => (1 : ℝ)) := by
  refine ⟨rfl, rfl, Step.set_scale coregW ![2, 2, 2], ?_⟩
  intro h
  have h0 := congrFun h 0
  norm_num at h0

/-- Claim C10: a fresh session starts with its last-applied parameters equal
to its current parameters and with no outlier filter; `fit_fiducials` never
changes the filter; among all operations only `omit_head_shape_points` can
install a filter on a session that had none, and it does install one for
every positive distance. -/
theorem fresh_session_invariants (hsp surf : List Pt) (d : Params) (fm : FidMatch) :
    (mkCoregistration hsp surf d fm).lastParams = (mkCoregistration hsp surf d fm).params ∧
    (mkCoregistration hsp surf d fm).extraPointsFilter = none ∧
    (∀ s s' : Coregistration, Step Op.fit_fiducials s s' →
      s'.extraPointsFilter = s.extraPointsFilter) ∧
    (∀ (op : Op) (s s' : Coregistration), s.extraPointsFilter = none → Step op s s' →
      s'.extraPointsFilter ≠ none → op = Op.omit_head_shape_points) ∧
    (∀ (s : Coregistration) (dist : ℝ), 0 < dist →
      (omit_head_shape_points dist s).extraPointsFilter ≠ none) := by
  refine ⟨rfl, rfl, ?_, ?_, ?_⟩
  · intro s s' h
    cases h
    rfl
  · intro op s s' hnone hstep hne
    cases hstep <;>
      first
      | rfl
      | exact absurd hnone hne
  · intro s dist hdist
    unfold omit_head_shape_points
    rw [if_pos hdist]
    simp

theorem fresh_session_invariants_witness :
    coregW.lastParams = coregW.params ∧
      coregW.extraPointsFilter = none ∧
      (applyFit coregW identParams).extraPointsFilter = coregW.extraPointsFilter ∧
      (omit_head_shape_points 1 coregW).extraPointsFilter ≠ none := by
  obtain ⟨h1, h2, h3, _, h5⟩ :=
    fresh_session_invariants [] [] identParams FidMatch.matched
  refine ⟨h1, h2, ?_, h5 coregW 1 one_pos⟩
  refine h3 coregW (applyFit coregW identParams)
    (Step.fit_fiducials coregW identParams ⟨fun _ => rfl, ?_⟩)
  intro hmode
  simp [coregW, mkCoregistration] at hmode

theorem foldl_min_pos (x : Pt) (qs : List Pt) : ∀ acc : ℝ, 0 < acc →
    (∀ q ∈ qs, 0 < sqDist x q) →
    0 < qs.foldl (fun m r => min m (sqDist x r)) acc := by
  induction qs with
  | nil =>
      intro acc hacc _
      simpa using hacc
  | cons q qs ih =>
      intro acc hacc hq
      simp only [List.foldl_cons]
      exact ih _ (lt_min hacc (hq q (by simp))) fun r hr => hq r (by simp [hr])

theorem nearestSqDist_pos {x : Pt} {surf : List Pt} (hne : surf ≠ [])
    (hx : ∀ q ∈ surf, x ≠ q) : 0 < nearestSqDist x surf := by
  cases surf with
  | nil => exact absurd rfl hne
  | cons q qs =>
      show 0 < qs.foldl (fun m r => min m (sqDist x r)) (sqDist x q)
      exact foldl_min_pos x qs (sqDist x q) (sqDist_pos (hx q (by simp)))
        fun r hr => sqDist_pos (hx r (by simp [hr]))

/-- Claim C6 (amended): `compute_dig_mri_distances` returns exactly one
distance per usable (non-omitted) head-shape point, every returned distance
is nonnegative, and all distances are strictly positive whenever the surface
is non-empty and no transformed head-shape point lies exactly on it; the
modelled query is a pure function of the session state, so it changes no
parameters, filter or mode fields.  (The original claim's unconditional
strict positivity fails when a transformed point lies on the surface.) -/
theorem compute_dig_mri_distances_spec (s : Coregistration) :
    (compute_dig_mri_distances s).length = (usableHsp s).length ∧
    (∀ x ∈ compute_dig_mri_distances s, 0 ≤ x) ∧
    (s.surface ≠ [] →
      (∀ p ∈ usableHsp s, ∀ q ∈ s.surface, applyParams s.params p ≠ q) →
      ∀ x ∈ compute_dig_mri_distances s, 0 < x) := by
  refine ⟨List.length_map _ _, ?_, ?_⟩
  · intro x hx
    obtain ⟨p, hp, rfl⟩ := List.mem_map.mp hx
    exact Real.sqrt_nonneg _
  · intro hne hoff x hx
    obtain ⟨p, hp, rfl⟩ := List.mem_map.mp hx
    exact Real.sqrt_pos.mpr (nearestSqDist_pos hne fun q hq => hoff p hp q hq)

theorem compute_dig_mri_distances_spec_witness :
    ∀ x ∈ compute_dig_mri_distances coregOff, 0 < x := by
  apply (compute_dig_mri_distances_spec coregOff).2.2
  · simp [coregOff, mkCoregistration]
  · intro p hp q hq
    have hp1 : p = 0 := by
      simpa [coregOff, mkCoregistration, usableHsp] using hp
    have hq1 : q = ptE0 := by
      simpa [coregOff, mkCoregistration] using hq
    subst hp1
    subst hq1
    rw [show coregOff.params = identParams from rfl, applyParams_ident_zero]
    intro h
    have h0 := congrFun h 0
    simp [ptE0] at h0

/-- Counterexample to claim C6 as stated: a head-shape point lying exactly on
the MRI surface yields nearest-surface distance zero, so the returned
distances are not all strictly positive. -/
theorem compute_dig_mri_distances_zero_distance :
    compute_dig_mri_distances coregOn = [0] ∧
      ¬ (∀ x ∈ compute_dig_mri_distances coregOn, 0 < x) := by
  have h2 : nearestSqDist (applyParams identParams 0) [(0 : Pt)] = 0 := by
    rw [applyParams_ident_zero]
    simp [nearestSqDist, sqDist_self]
  have hc : compute_dig_mri_distances coregOn = [0] := by
    unfold compute_dig_mri_distances
    have h1 : usableHsp coregOn = [0] := rfl
    rw [h1]
    simp [coregOn, mkCoregistration, h2]
  refine ⟨hc, fun hall => ?_⟩
  have h0 := hall 0 (by rw [hc]; simp)
  exact lt_irrefl 0 h0

/-- Head-frame fiducials of the coregistration witness: origin plus the two
unit points, a non-collinear triple. -/
def headW : Fin 3 → Pt := ![0, ![1, 0, 0], ![0, 1, 0]]

/-- Identity head-to-mri Transform of the coregistration witness. -/
def TW : Transform := ⟨CoordFrame.head, CoordFrame.mri, 1, 0⟩

/-- Claim C8: fitting fiducials related by a known rigid head-to-mri
transform recovers that transform: `coregister_fiducials` returns a
Transform with from-frame head and to-frame mri whose matrix equals the
known transform's, so applying it reproduces the fit targets. -/
theorem coregister_fiducials_recovers_transform (A0 : M3) (t0 : Pt)
    (headFids mriFids : Fin 3 → Pt) (hrot : IsRotation A0)
    (hmap : ∀ i, mriFids i = A0.mulVec (headFids i) + t0)
    (hnc : cross3 (headFids 1 - headFids 0) (headFids 2 - headFids 0) ≠ 0)
    (T : Transform) (hrun : coregister_fiducials headFids mriFids T) :
    T.fromFrame = CoordFrame.head ∧ T.toFrame = CoordFrame.mri ∧
      T.lin = A0 ∧ T.off = t0 ∧
      ∀ i, T.lin.mulVec (headFids i) + T.off = mriFids i := by
  obtain ⟨hf, ht, hbest⟩ := hrun
  have hexact : ∀ i, applyXfm ⟨A0, t0⟩ (headFids i) = mriFids i := by
    intro i
    rw [hmap i]
    rfl
  have hT := hbest.exact (show Rigid ⟨A0, t0⟩ from hrot) hexact
  have hagree : ∀ i, T.lin.mulVec (headFids i) + T.off = A0.mulVec (headFids i) + t0 := by
    intro i
    have h1 := hT i
    rw [hmap i] at h1
    exact h1
  obtain ⟨hAB, hab⟩ := rigid_unique hbest.1 hrot headFids hagree hnc
  refine ⟨hf, ht, hAB, hab, fun i => hT i⟩

theorem coregister_fiducials_recovers_transform_witness :
    TW.fromFrame = CoordFrame.head ∧ TW.toFrame = CoordFrame.mri ∧
      TW.lin = 1 ∧ TW.off = 0 ∧
      ∀ i, TW.lin.mulVec (headW i) + TW.off = headW i := by
  apply coregister_fiducials_recovers_transform 1 0 headW headW isRotation_one
  · intro i
    simp
  · intro h
    have h2 := congrFun h 2
    simp [headW, cross3, Pi.sub_apply] at h2
  · refine ⟨rfl, rfl, isRotation_one, ?_⟩
    intro U hU
    have h0 : sqErr ⟨TW.lin, TW.off⟩ headW headW = 0 := by
      apply Finset.sum_eq_zero
      intro i _
      have happ : applyXfm ⟨TW.lin, TW.off⟩ (headW i) = headW i := by
        simp [applyXfm, TW]
      rw [happ, sqDist_self]
    rw [h0]
    exact sqErr_nonneg U headW headW

end
